import Mathlib

/-
Verification of the selection-addressing and history engine of the tinytext
rich-text editor.

The development shallowly embeds, from the TypeScript sources:
  - HistoryManager (src/core/HistoryManager.ts): the bounded, debounced
    undo/redo snapshot store with its re-entrancy lock;
  - SelectionManager's path codec and serialization
    (src/core/SelectionManager.ts): structural addresses over the document
    tree, serialize/deserialize of selections;
  - the undo/redo command replay (src/core/commands.ts, registerBuiltinCommands);
  - the editor's content-change handler (src/core/Editor.ts, _onContentChange).

Machine conventions: JavaScript arrays are Lists with index 0 the oldest
element (Array.push appends at the end, Array.pop removes the last element,
Array.shift removes the first). Date.now() is modelled by an explicit clock
argument. The debounce timer is modelled as the optional pending arguments of
the armed commit closure; firing the timer is an explicit transition, since the
host event loop is single-threaded and timer callbacks run between operations.
-/

namespace TinyText

/-- SerializedSelection from src/core/types.ts: two structural addresses
(child-index paths from the editor root) plus the two endpoint offsets. -/
structure SerializedSelection where
  anchorPath : List Nat
  anchorOffset : Nat
  focusPath : List Nat
  focusOffset : Nat
deriving Repr, DecidableEq

/-- HistorySnapshot from src/core/types.ts: full innerHTML, the serialized
selection (or null), and a Date.now() timestamp. -/
structure HistorySnapshot where
  html : String
  selection : Option SerializedSelection
  timestamp : Nat
deriving Repr, DecidableEq

/-- State of a HistoryManager instance (src/core/HistoryManager.ts).
undoStack and redoStack are JS arrays (index 0 = oldest entry).
debounceTimer holds the captured arguments of the pending doPush closure when
a non-immediate push has armed the 300 ms timer, and none when no timer is
pending (a fired or cleared timer behaves identically to none). -/
structure HistoryManager where
  undoStack : List HistorySnapshot
  redoStack : List HistorySnapshot
  maxSize : Nat
  debounceTimer : Option (String × Option SerializedSelection)
  locked : Bool
deriving Repr, DecidableEq

namespace HistoryManager

/-- constructor(maxSize = DEFAULT_MAX_SIZE): both stacks empty, no pending
timer, unlocked. -/
def init (maxSize : Nat) : HistoryManager :=
  { undoStack := [], redoStack := [], maxSize := maxSize,
    debounceTimer := none, locked := false }

/-- The doPush closure inside HistoryManager.push: skip if the most recent
undo entry has identical html; otherwise append the snapshot, clear the redo
stack, and shift off the oldest entry if the stack exceeds maxSize. -/
def doPush (m : HistoryManager) (html : String)
    (selection : Option SerializedSelection) (now : Nat) : HistoryManager :=
  match m.undoStack.getLast? with
  | some last =>
    if last.html = html then m
    else
      let pushed := m.undoStack ++ [⟨html, selection, now⟩]
      { m with
        undoStack := if pushed.length > m.maxSize then pushed.tail else pushed,
        redoStack := [] }
  | none =>
    let pushed := m.undoStack ++ [⟨html, selection, now⟩]
    { m with
      undoStack := if pushed.length > m.maxSize then pushed.tail else pushed,
      redoStack := [] }

/-- HistoryManager.push(html, selection = null, immediate = false):
no-op while locked; immediate pushes clear any pending timer and commit
synchronously; otherwise the debounce timer is (re)armed with the new
arguments, superseding any pending commit. -/
def push (m : HistoryManager) (html : String)
    (selection : Option SerializedSelection) (immediate : Bool)
    (now : Nat) : HistoryManager :=
  if m.locked then m
  else if immediate then
    doPush { m with debounceTimer := none } html selection now
  else
    { m with debounceTimer := some (html, selection) }

/-- The debounce timer firing: the scheduled callback is exactly doPush with
the captured arguments — it performs no further locked check. A timer that is
not pending cannot fire. -/
def fireDebounce (m : HistoryManager) (now : Nat) : HistoryManager :=
  match m.debounceTimer with
  | none => m
  | some (html, selection) =>
    doPush { m with debounceTimer := none } html selection now

/-- HistoryManager.undo(currentHtml, currentSelection): null on an empty undo
stack; otherwise save the current state onto the redo stack, pop the undo
stack, and return the popped snapshot. -/
def undo (m : HistoryManager) (currentHtml : String)
    (currentSelection : Option SerializedSelection) (now : Nat) :
    HistoryManager × Option HistorySnapshot :=
  if m.undoStack.length = 0 then (m, none)
  else
    ({ m with
        redoStack := m.redoStack ++ [⟨currentHtml, currentSelection, now⟩],
        undoStack := m.undoStack.dropLast },
      m.undoStack.getLast?)

/-- HistoryManager.redo(currentHtml, currentSelection): null on an empty redo
stack; otherwise save the current state onto the undo stack (no trimming
here), pop the redo stack, and return the popped snapshot. -/
def redo (m : HistoryManager) (currentHtml : String)
    (currentSelection : Option SerializedSelection) (now : Nat) :
    HistoryManager × Option HistorySnapshot :=
  if m.redoStack.length = 0 then (m, none)
  else
    ({ m with
        undoStack := m.undoStack ++ [⟨currentHtml, currentSelection, now⟩],
        redoStack := m.redoStack.dropLast },
      m.redoStack.getLast?)

/-- HistoryManager.canUndo(). -/
def canUndo (m : HistoryManager) : Bool :=
  m.undoStack.length > 0

/-- HistoryManager.canRedo(). -/
def canRedo (m : HistoryManager) : Bool :=
  m.redoStack.length > 0

/-- HistoryManager.clear(): empty both stacks and cancel any pending timer. -/
def clear (m : HistoryManager) : HistoryManager :=
  { m with undoStack := [], redoStack := [], debounceTimer := none }

/-- HistoryManager.lock(). -/
def lock (m : HistoryManager) : HistoryManager :=
  { m with locked := true }

/-- HistoryManager.unlock(). -/
def unlock (m : HistoryManager) : HistoryManager :=
  { m with locked := false }

/-- HistoryManager.getUndoCount(). -/
def getUndoCount (m : HistoryManager) : Nat :=
  m.undoStack.length

/-- HistoryManager.getRedoCount(). -/
def getRedoCount (m : HistoryManager) : Nat :=
  m.redoStack.length

end HistoryManager

/-- One client-visible operation on a HistoryManager instance, as issued by the
single-threaded host: the public methods, plus the debounce timer firing
(a timer callback delivered by the event loop). -/
inductive HistOp where
  | push (html : String) (selection : Option SerializedSelection)
      (immediate : Bool) (now : Nat)
  | fire (now : Nat)
  | undo (currentHtml : String) (currentSelection : Option SerializedSelection)
      (now : Nat)
  | redo (currentHtml : String) (currentSelection : Option SerializedSelection)
      (now : Nat)
  | clear
  | lock
  | unlock
deriving Repr

/-- Interpret one operation on the store state (return values discarded). -/
def applyOp (m : HistoryManager) : HistOp → HistoryManager
  | .push html selection immediate now => m.push html selection immediate now
  | .fire now => m.fireDebounce now
  | .undo currentHtml currentSelection now =>
      (m.undo currentHtml currentSelection now).1
  | .redo currentHtml currentSelection now =>
      (m.redo currentHtml currentSelection now).1
  | .clear => m.clear
  | .lock => m.lock
  | .unlock => m.unlock

/-- Interpret a sequence of operations, oldest first. -/
def applyOps (m : HistoryManager) (ops : List HistOp) : HistoryManager :=
  ops.foldl applyOp m

/-- Push a list of contents through the store, each as an immediate
(debounce-settled) push at successive clock ticks. -/
def pushAll (m : HistoryManager) (contents : List String) : HistoryManager :=
  contents.foldl (fun acc c => acc.push c none true 0) m

/-
The undo/redo command replay (src/core/commands.ts, registerBuiltinCommands).

The execute() bodies are straight-line code with no try/finally:

    const snapshot = history.undo(editable.innerHTML, selection.serialize());
    if (!snapshot) return;
    history.lock();
    editable.innerHTML = snapshot.html;
    if (snapshot.selection) selection.deserialize(snapshot.selection);
    history.unlock();
    editor.emit(...);

An exception raised by a step propagates out of execute() at once, skipping
every later statement. Whether the host raises during the innerHTML
assignment (applyThrows) or during the selection restoration (restoreThrows)
is an environmental fact, passed in as an explicit parameter; the embedding
then follows the source's control flow exactly.
-/

/-- Observable outcome of one undo/redo command execution: the history store
afterwards, the content written into the editable area (none if the write
never completed), and whether an exception escaped execute(). -/
structure ReplayResult where
  history : HistoryManager
  appliedHtml : Option String
  threw : Bool
deriving Repr, DecidableEq

/-- The undo command's execute() from registerBuiltinCommands. -/
def undoCommandExecute (history : HistoryManager) (currentHtml : String)
    (currentSelection : Option SerializedSelection) (now : Nat)
    (applyThrows : Bool) (restoreThrows : Bool) : ReplayResult :=
  match history.undo currentHtml currentSelection now with
  | (h, none) => ⟨h, none, false⟩
  | (h, some snapshot) =>
    let locked := h.lock
    if applyThrows then ⟨locked, none, true⟩
    else if snapshot.selection.isSome && restoreThrows then
      ⟨locked, some snapshot.html, true⟩
    else ⟨locked.unlock, some snapshot.html, false⟩

/-- The redo command's execute() from registerBuiltinCommands; identical shape
with history.redo in place of history.undo. -/
def redoCommandExecute (history : HistoryManager) (currentHtml : String)
    (currentSelection : Option SerializedSelection) (now : Nat)
    (applyThrows : Bool) (restoreThrows : Bool) : ReplayResult :=
  match history.redo currentHtml currentSelection now with
  | (h, none) => ⟨h, none, false⟩
  | (h, some snapshot) =>
    let locked := h.lock
    if applyThrows then ⟨locked, none, true⟩
    else if snapshot.selection.isSome && restoreThrows then
      ⟨locked, some snapshot.html, true⟩
    else ⟨locked.unlock, some snapshot.html, false⟩

/-
TinyTextEditor._onContentChange (src/core/Editor.ts), the debounced change
handler. The editor state it reads and the effects it produces.
-/

/-- The slice of TinyTextEditor state that _onContentChange consults. -/
structure EditorState where
  destroyed : Bool
  maxLength : Nat
  editableHTML : String
  editableText : String
  history : HistoryManager
deriving Repr, DecidableEq

/-- Effects of one _onContentChange invocation: the history store afterwards,
the editable content afterwards (the handler never writes the document, so it
equals the input), whether a change event was emitted, and whether the handler
restored a prior snapshot into the document. -/
structure ContentChangeResult where
  history : HistoryManager
  editableHTML : String
  emittedChange : Bool
  restoredPriorState : Bool
deriving Repr, DecidableEq

/-- TinyTextEditor._onContentChange: returns at once if destroyed; if a
maximum length is configured (maxLength > 0) and the text exceeds it, the
max-length branch runs
    const last = this.history.getUndoCount() > 0 ? null : null;
    void last;
    return;
(both arms of the conditional are null, so nothing is restored) and the
handler returns without pushing or emitting. Otherwise it pushes a debounced
snapshot and emits the change event. Status-bar, placeholder and toolbar
updates are pure UI and not modelled. -/
def onContentChange (st : EditorState)
    (currentSelection : Option SerializedSelection) (now : Nat) :
    ContentChangeResult :=
  if st.destroyed then ⟨st.history, st.editableHTML, false, false⟩
  else if 0 < st.maxLength ∧ st.maxLength < st.editableText.length then
    ⟨st.history, st.editableHTML, false, false⟩
  else
    ⟨st.history.push st.editableHTML currentSelection false now,
      st.editableHTML, true, false⟩

/-
The document tree and the SelectionManager path codec
(src/core/SelectionManager.ts).

A DOM node is an element with an ordered childNodes list or a text leaf.
DOM object identity is modelled by a numeric id carried on every node; the
live trees the editor builds give distinct nodes distinct identities.
-/

/-- A node of the document tree. -/
inductive DomNode where
  | element (id : Nat) (children : List DomNode)
  | text (id : Nat) (data : String)

/-- The identity of a node (stands for JS object identity). -/
def DomNode.nodeId : DomNode → Nat
  | element i _ => i
  | text i _ => i

/-- node.childNodes: the ordered child list; text leaves have none. -/
def DomNode.childNodes : DomNode → List DomNode
  | element _ cs => cs
  | text _ _ => []

/-- Node.length in the sense of Range.setStart boundary validation: the
character count for text nodes, the child count for elements. -/
def DomNode.nodeLength : DomNode → Nat
  | element _ cs => cs.length
  | text _ s => s.length

/-- SelectionManager.getNodeFromPath: walk down from the root, taking the
child at each recorded index; null as soon as an index has no child. -/
def getNodeFromPath : DomNode → List Nat → Option DomNode
  | root, [] => some root
  | root, index :: rest =>
    match root.childNodes.get? index with
    | none => none
    | some child => getNodeFromPath child rest

/-
SelectionManager.getNodePath(node) walks from the node up to this.root via
parentNode, unshifting at each step the index of the current node among its
parent's childNodes (indexOf, 0-based), and returns null when the parent chain
ends before reaching the root. A structural tree has no parent pointers, so
the same address is computed top-down: locate the node with the given identity
beneath the root and record, level by level, the index of the child descended
into. A node that is the root itself gets the empty path (the while loop exits
immediately); a node not under the root gets null (no occurrence found).
-/

mutual

/-- SelectionManager.getNodePath, relative to the given root. -/
def getNodePath : DomNode → Nat → Option (List Nat)
  | .text i _, target => if i = target then some [] else none
  | .element i cs, target =>
    if i = target then some [] else getNodePathList cs 0 target

/-- Search a childNodes list, starting at child index `index`, for the node
with the target identity; paths come back root-relative to this level. -/
def getNodePathList : List DomNode → Nat → Nat → Option (List Nat)
  | [], _, _ => none
  | child :: rest, index, target =>
    match getNodePath child target with
    | some p => some (index :: p)
    | none => getNodePathList rest (index + 1) target

end

/-- SelectionManager.serialize, with the live range's endpoints given by node
identity plus offset: encode both endpoints via getNodePath; null if either
endpoint is not under the root. Offsets are copied through unchanged. -/
def serialize (root : DomNode) (startId startOffset endId endOffset : Nat) :
    Option SerializedSelection :=
  match getNodePath root startId, getNodePath root endId with
  | some anchorPath, some focusPath =>
    some ⟨anchorPath, startOffset, focusPath, endOffset⟩
  | _, _ => none

/-- The range a successful deserialize installs as the live selection. -/
structure ResolvedRange where
  startContainer : DomNode
  startOffset : Nat
  endContainer : DomNode
  endOffset : Nat

/-- SelectionManager.deserialize: decode both paths; if either decode fails
the call is a silent no-op (modelled as none). Otherwise range.setStart /
range.setEnd run inside a try/catch: they throw (caught, selection untouched,
none) exactly when an offset exceeds its node's length; otherwise the decoded
range is installed as the live selection (some). -/
def deserialize (root : DomNode) (serialized : SerializedSelection) :
    Option ResolvedRange :=
  match getNodeFromPath root serialized.anchorPath,
      getNodeFromPath root serialized.focusPath with
  | some anchorNode, some focusNode =>
    if serialized.anchorOffset ≤ anchorNode.nodeLength ∧
        serialized.focusOffset ≤ focusNode.nodeLength then
      some ⟨anchorNode, serialized.anchorOffset,
        focusNode, serialized.focusOffset⟩
    else none
  | _, _ => none

/-- node.removeChild(node.childNodes[index]) on an element. -/
def DomNode.removeChild : DomNode → Nat → DomNode
  | .element i cs, index => .element i (cs.eraseIdx index)
  | n, _ => n

/-
Concrete inputs for the claims' scenarios and witnesses.
-/

/-- A paragraph element holding a single text node. -/
def para (pid tid : Nat) (s : String) : DomNode :=
  .element pid [.text tid s]

/-- The 5-paragraph document of the selection-restoration scenario; the
editor root has id 0, the 3rd paragraph's text node has id 31. -/
def fiveParagraphDoc : DomNode :=
  .element 0
    [para 10 11 "First paragraph", para 20 21 "Second paragraph",
      para 30 31 "Third paragraph", para 40 41 "Fourth paragraph",
      para 50 51 "Fifth paragraph"]

/-- The selection captured at offset 2 inside the 3rd paragraph's text node:
both endpoints at structural address [2, 0], offset 2. -/
def capturedSelection : SerializedSelection :=
  ⟨[2, 0], 2, [2, 0], 2⟩

/-- A store holding one undo snapshot, about to be replayed. -/
def replayStore : HistoryManager :=
  ⟨[⟨"<p>old</p>", none, 0⟩], [], 200, none, false⟩

/-- A store holding one redo snapshot, about to be replayed. -/
def replayStoreRedo : HistoryManager :=
  ⟨[], [⟨"<p>next</p>", none, 0⟩], 200, none, false⟩

/-- A mixed operation sequence used to check the capacity invariant on a
concrete store of capacity 2. -/
def c3WitnessOps : List HistOp :=
  [.push "A" none true 0, .push "B" none true 1, .push "C" none true 2,
    .undo "D" none 3, .fire 4, .redo "E" none 5, .push "F" none false 6,
    .fire 7, .lock, .push "X" none true 8, .unlock, .clear,
    .push "G" none true 9]

/-- Seven pairwise-distinct contents (capacity 2 plus 5) for the FIFO
eviction scenario. -/
def c3WitnessContents : List String :=
  ["a", "b", "c", "d", "e", "f", "g"]

/-- The append-then-trim step of a committing doPush, as one function: append
the snapshot and shift off the oldest entry if the result exceeds the
capacity. -/
def trimAppend (l : List HistorySnapshot) (x : HistorySnapshot) (N : Nat) :
    List HistorySnapshot :=
  if (l ++ [x]).length > N then (l ++ [x]).tail else l ++ [x]

/-
Theorems.
-/

/-- Appending a snapshot and then trimming (as doPush does) always leaves the
appended snapshot as the most recent entry, provided the capacity is at least
one: the trim shifts off only the oldest entry. -/
theorem trimAppend_getLast (l : List HistorySnapshot) (x : HistorySnapshot)
    (N : Nat) (hN : 1 ≤ N) :
    (trimAppend l x N).getLast? = some x := by
  rw [trimAppend]
  cases l with
  | nil =>
    rw [if_neg (by simp; omega)]
    simp
  | cons head t =>
    have hcat : (head :: t ++ [x]).getLast? = some x :=
      List.getLast?_concat (head :: t)
    split
    · show (t ++ [x]).getLast? = some x
      exact List.getLast?_concat t
    · exact hcat

/-- doPush skips entirely when the most recent undo entry already carries the
pushed content. -/
theorem doPush_duplicate (m : HistoryManager) (html : String)
    (sel : Option SerializedSelection) (now : Nat)
    (h : m.undoStack.getLast?.map HistorySnapshot.html = some html) :
    m.doPush html sel now = m := by
  cases hl : m.undoStack.getLast? with
  | none => simp [hl] at h
  | some last =>
    have hh : last.html = html := by
      rw [hl] at h
      simpa using h
    simp [HistoryManager.doPush, hl, hh]

/-- doPush commits when the most recent undo entry differs (or the stack is
empty): append, clear the redo stack, shift off the oldest entry on
overflow. -/
theorem doPush_commit (m : HistoryManager) (html : String)
    (sel : Option SerializedSelection) (now : Nat)
    (h : ¬ m.undoStack.getLast?.map HistorySnapshot.html = some html) :
    m.doPush html sel now =
      { m with
        undoStack := trimAppend m.undoStack ⟨html, sel, now⟩ m.maxSize,
        redoStack := [] } := by
  cases hl : m.undoStack.getLast? with
  | none => simp [HistoryManager.doPush, hl, trimAppend]
  | some last =>
    have hh : ¬ last.html = html := by
      rw [hl] at h
      simpa using h
    simp [HistoryManager.doPush, hl, hh, trimAppend]

/-- C7: a push issued while the lock flag is set has zero observable effect on
either the undo stack or the redo stack, for all arguments. -/
theorem push_while_locked_is_noop (m : HistoryManager) (html : String)
    (sel : Option SerializedSelection) (immediate : Bool) (now : Nat)
    (h : m.locked = true) :
    (m.push html sel immediate now).undoStack = m.undoStack ∧
    (m.push html sel immediate now).redoStack = m.redoStack := by
  simp [HistoryManager.push, h]

theorem push_while_locked_is_noop_witness :
    ((⟨[⟨"a", none, 0⟩], [⟨"b", none, 1⟩], 5, none, true⟩ :
        HistoryManager).push "x" none true 7).undoStack =
      (⟨[⟨"a", none, 0⟩], [⟨"b", none, 1⟩], 5, none, true⟩ :
        HistoryManager).undoStack ∧
    ((⟨[⟨"a", none, 0⟩], [⟨"b", none, 1⟩], 5, none, true⟩ :
        HistoryManager).push "x" none true 7).redoStack =
      (⟨[⟨"a", none, 0⟩], [⟨"b", none, 1⟩], 5, none, true⟩ :
        HistoryManager).redoStack :=
  push_while_locked_is_noop _ "x" none true 7 rfl

/-- C6: undo followed immediately by redo (no intervening push) returns a
snapshot carrying exactly the content and selection that were current before
the undo, for any store state with something to undo and any snapshot depth. -/
theorem undo_then_redo_returns_pre_undo_state (m : HistoryManager)
    (curHtml : String) (curSel : Option SerializedSelection) (t1 : Nat)
    (redoHtml : String) (redoSel : Option SerializedSelection) (t2 : Nat)
    (h : m.canUndo = true) :
    ((m.undo curHtml curSel t1).1.redo redoHtml redoSel t2).2 =
      some ⟨curHtml, curSel, t1⟩ := by
  have hne : m.undoStack.length ≠ 0 := by
    simp [HistoryManager.canUndo] at h
    omega
  simp [HistoryManager.undo, HistoryManager.redo, hne, List.getLast?_concat]

theorem undo_then_redo_returns_pre_undo_state_witness :
    (((⟨[⟨"s1", none, 0⟩, ⟨"s2", none, 1⟩], [], 9, none, false⟩ :
        HistoryManager).undo "cur" (some ⟨[0], 1, [0], 1⟩) 4).1.redo
      "s2" none 5).2 = some ⟨"cur", some ⟨[0], 1, [0], 1⟩, 4⟩ :=
  undo_then_redo_returns_pre_undo_state _ "cur" (some ⟨[0], 1, [0], 1⟩) 4
    "s2" none 5 (by decide)

/-- C1 counterexample: in the 5-paragraph scenario the pre-deletion address
still resolves after the 1st paragraph is deleted — restoration does NOT
return failure; it resolves the address to the shifted sibling (the text node
of the former 4th paragraph, id 41, not the captured node id 31) and installs
the selection there. -/
theorem restore_after_delete_counterexample :
    serialize fiveParagraphDoc 31 2 31 2 = some capturedSelection ∧
    (deserialize (fiveParagraphDoc.removeChild 0) capturedSelection).isSome =
      true ∧
    (deserialize (fiveParagraphDoc.removeChild 0) capturedSelection).map
      (fun r => r.startContainer.nodeId) = some 41 := by
  decide

/-- C1 amended: after deleting the 1st paragraph, the pre-deletion address
[2, 0] (captured for the 3rd paragraph's text node, id 31) still resolves
positionally, so restoration silently installs the selection at offset 2 in
the shifted sibling — the former 4th paragraph's text node (id 41) — instead
of returning failure; restoration fails only when a path index is out of
range (such as [4, 0] in the 4-paragraph document) or an offset exceeds the
resolved node's length. -/
theorem restore_after_delete_selects_shifted_sibling :
    getNodePath fiveParagraphDoc 31 = some [2, 0] ∧
    (getNodeFromPath (fiveParagraphDoc.removeChild 0) [2, 0]).map
      DomNode.nodeId = some 41 ∧
    (deserialize (fiveParagraphDoc.removeChild 0) capturedSelection).map
      (fun r => (r.startContainer.nodeId, r.startOffset,
        r.endContainer.nodeId, r.endOffset)) = some (41, 2, 41, 2) ∧
    (getNodeFromPath (fiveParagraphDoc.removeChild 0) [4, 0]).isNone = true := by
  decide

/-- C2 (code bug): the replay bodies have no try/finally, so when applying the
snapshot's content throws, execute() exits with the lock flag still set —
unlock() does not run on that exit path — and a subsequent push is suppressed
by the leftover lock. Shown for both the undo and the redo command on concrete
one-snapshot stores. -/
theorem replay_exception_leaves_lock_set :
    (undoCommandExecute replayStore "<p>cur</p>" none 5 true false).threw =
      true ∧
    (undoCommandExecute replayStore "<p>cur</p>" none 5 true
      false).history.locked = true ∧
    ((undoCommandExecute replayStore "<p>cur</p>" none 5 true
        false).history.push "<p>edit</p>" none true 6).undoStack =
      (undoCommandExecute replayStore "<p>cur</p>" none 5 true
        false).history.undoStack ∧
    (redoCommandExecute replayStoreRedo "<p>cur</p>" none 5 true
      false).history.locked = true := by
  decide

/-- C4: when a maximum length is configured and the observed text exceeds it,
_onContentChange silently drops the edit: the history store is untouched (no
snapshot pushed), no change event is emitted, no prior state is restored, and
the over-length content is left in the document unrejected and untruncated. -/
theorem overlength_change_silently_dropped (st : EditorState)
    (sel : Option SerializedSelection) (now : Nat)
    (hd : st.destroyed = false) (hmax : 0 < st.maxLength)
    (hlen : st.maxLength < st.editableText.length) :
    onContentChange st sel now = ⟨st.history, st.editableHTML, false, false⟩ := by
  simp [onContentChange, hd, hmax, hlen]

theorem overlength_change_silently_dropped_witness :
    onContentChange
      ⟨false, 5, "<p>abcdefgh</p>", "abcdefgh", HistoryManager.init 200⟩
      none 3 =
      ⟨HistoryManager.init 200, "<p>abcdefgh</p>", false, false⟩ :=
  overlength_change_silently_dropped _ none 3 rfl (by decide) (by decide)

/-- C8: push is idempotent under duplicate content. With the store unlocked,
capacity at least one, and content not already in the stack, two consecutive
settled pushes of the same content leave both stacks exactly as after the
first push, and the undo stack holds exactly one entry with that content
after the first push and still exactly one after the second. -/
theorem push_duplicate_content_idempotent (m : HistoryManager) (html : String)
    (sel1 sel2 : Option SerializedSelection) (t1 t2 : Nat)
    (hlock : m.locked = false) (hmax : 1 ≤ m.maxSize)
    (hfresh : ∀ s ∈ m.undoStack, ¬ s.html = html) :
    ((m.push html sel1 true t1).push html sel2 true t2).undoStack =
      (m.push html sel1 true t1).undoStack ∧
    ((m.push html sel1 true t1).push html sel2 true t2).redoStack =
      (m.push html sel1 true t1).redoStack ∧
    (m.push html sel1 true t1).undoStack.countP
      (fun s => s.html == html) = 1 ∧
    ((m.push html sel1 true t1).push html sel2 true t2).undoStack.countP
      (fun s => s.html == html) = 1 := by
  have hnd : ¬ m.undoStack.getLast?.map HistorySnapshot.html = some html := by
    cases hl : m.undoStack.getLast? with
    | none => simp
    | some last =>
      have : last ∈ m.undoStack := List.mem_of_mem_getLast? hl
      simpa using hfresh last this
  have h1 : m.push html sel1 true t1 =
      { m with
        undoStack := trimAppend m.undoStack ⟨html, sel1, t1⟩ m.maxSize,
        redoStack := [], debounceTimer := none } := by
    rw [HistoryManager.push, if_neg (by simp [hlock]), if_pos rfl,
      doPush_commit _ _ _ _ (by simpa using hnd)]
  have hlast1 : (m.push html sel1 true t1).undoStack.getLast? =
      some ⟨html, sel1, t1⟩ := by
    rw [h1]
    exact trimAppend_getLast m.undoStack _ m.maxSize hmax
  have h2 : (m.push html sel1 true t1).push html sel2 true t2 =
      m.push html sel1 true t1 := by
    rw [HistoryManager.push, if_neg (by rw [h1]; simp [hlock]), if_pos rfl]
    have ht : { m.push html sel1 true t1 with debounceTimer := none } =
        m.push html sel1 true t1 := by
      rw [h1]
    rw [ht, doPush_duplicate _ _ _ _ (by rw [hlast1]; simp)]
  have hcount : (m.push html sel1 true t1).undoStack.countP
      (fun s => s.html == html) = 1 := by
    rw [h1]
    show (trimAppend m.undoStack ⟨html, sel1, t1⟩ m.maxSize).countP
      (fun s => s.html == html) = 1
    rw [trimAppend]
    have hz : m.undoStack.countP (fun s => s.html == html) = 0 := by
      rw [List.countP_eq_zero]
      intro a ha
      simpa using hfresh a ha
    split
    · rename_i hov
      cases hu : m.undoStack with
      | nil =>
        rw [hu] at hov
        simp at hov
        omega
      | cons head t =>
        have htz : List.countP (fun s => s.html == html) t = 0 := by
          rw [List.countP_eq_zero]
          intro a ha
          have ham : a ∈ m.undoStack := by
            rw [hu]
            exact List.mem_cons_of_mem _ ha
          simpa using hfresh a ham
        simp only [List.cons_append, List.tail_cons, List.countP_append,
          List.countP_cons, List.countP_nil, htz]
        simp
    · rw [List.countP_append, hz, List.countP_cons]
      simp
  refine ⟨by rw [h2], by rw [h2], hcount, by rw [h2]; exact hcount⟩

theorem push_duplicate_content_idempotent_witness :
    (let m0 : HistoryManager := ⟨[⟨"p", none, 0⟩], [⟨"r", none, 0⟩], 3, none, false⟩
     ((m0.push "q" none true 1).push "q" none true 2).undoStack =
        (m0.push "q" none true 1).undoStack ∧
      ((m0.push "q" none true 1).push "q" none true 2).redoStack =
        (m0.push "q" none true 1).redoStack ∧
      (m0.push "q" none true 1).undoStack.countP
        (fun s => s.html == "q") = 1 ∧
      ((m0.push "q" none true 1).push "q" none true 2).undoStack.countP
        (fun s => s.html == "q") = 1) :=
  push_duplicate_content_idempotent _ "q" none none 1 2 rfl (by decide)
    (by decide)

/-- C10: a push whose content matches the top undo entry leaves the redo stack
untouched and the undo stack (hence the top entry's stored selection and
timestamp) unchanged, for every selection, immediacy flag, and clock value;
and whenever any push changes the redo stack at all, it does so by actually
committing: the redo stack becomes empty and the pushed snapshot becomes the
new top undo entry. -/
theorem duplicate_push_leaves_redo_untouched (m : HistoryManager) (c : String)
    (hdup : m.undoStack.getLast?.map HistorySnapshot.html = some c)
    (hmax : 1 ≤ m.maxSize) :
    (∀ sel imm t, (m.push c sel imm t).undoStack = m.undoStack ∧
      (m.push c sel imm t).redoStack = m.redoStack) ∧
    (∀ c2 sel2 imm2 t2, ¬ (m.push c2 sel2 imm2 t2).redoStack = m.redoStack →
      (m.push c2 sel2 imm2 t2).redoStack = [] ∧
      (m.push c2 sel2 imm2 t2).undoStack.getLast? = some ⟨c2, sel2, t2⟩) := by
  constructor
  · intro sel imm t
    by_cases hL : m.locked
    · simp [HistoryManager.push, hL]
    · cases imm with
      | false => simp [HistoryManager.push, hL]
      | true =>
        rw [HistoryManager.push, if_neg (by simp [hL]), if_pos rfl,
          doPush_duplicate _ _ _ _ (by simpa using hdup)]
        exact ⟨rfl, rfl⟩
  · intro c2 sel2 imm2 t2 hne
    by_cases hL : m.locked
    · simp [HistoryManager.push, hL] at hne
    · cases imm2 with
      | false => simp [HistoryManager.push, hL] at hne
      | true =>
        rw [HistoryManager.push, if_neg (by simp [hL]), if_pos rfl] at hne ⊢
        by_cases hd2 : ({ m with debounceTimer := none } :
            HistoryManager).undoStack.getLast?.map HistorySnapshot.html =
            some c2
        · rw [doPush_duplicate _ _ _ _ hd2] at hne
          simp at hne
        · rw [doPush_commit _ _ _ _ hd2]
          exact ⟨rfl, trimAppend_getLast m.undoStack _ m.maxSize hmax⟩

theorem duplicate_push_leaves_redo_untouched_witness :
    (let m0 : HistoryManager :=
      ⟨[⟨"p", none, 0⟩, ⟨"q", some ⟨[1], 0, [1], 0⟩, 1⟩],
        [⟨"r", none, 2⟩], 4, none, false⟩
     (∀ sel imm t, (m0.push "q" sel imm t).undoStack = m0.undoStack ∧
        (m0.push "q" sel imm t).redoStack = m0.redoStack) ∧
      (∀ c2 sel2 imm2 t2,
        ¬ (m0.push c2 sel2 imm2 t2).redoStack = m0.redoStack →
        (m0.push c2 sel2 imm2 t2).redoStack = [] ∧
        (m0.push c2 sel2 imm2 t2).undoStack.getLast? =
          some ⟨c2, sel2, t2⟩)) :=
  duplicate_push_leaves_redo_untouched _ "q" (by decide) (by decide)

/-- Firing an armed debounce timer runs the captured doPush, with the timer
handle cleared. -/
theorem fireDebounce_armed (m : HistoryManager) (html : String)
    (sel : Option SerializedSelection) (now : Nat)
    (h : m.debounceTimer = some (html, sel)) :
    m.fireDebounce now =
      HistoryManager.doPush { m with debounceTimer := none } html sel now := by
  unfold HistoryManager.fireDebounce
  rw [h]

/-- C9: the lock flag is consulted only on entry to push, never when the
debounce timer fires. Arming the debounce while unlocked, then locking, then
letting the timer fire still executes the armed commit during the locked
window: the snapshot is appended to the undo stack and the redo stack is
cleared while locked remains set (a non-immediate push and the lock call
themselves leave the redo stack untouched). -/
theorem lock_not_consulted_at_debounce_fire (m : HistoryManager)
    (html : String) (sel : Option SerializedSelection) (t1 t2 : Nat)
    (hlock : m.locked = false) (hmax : 1 ≤ m.maxSize)
    (hnd : ¬ m.undoStack.getLast?.map HistorySnapshot.html = some html) :
    ((m.push html sel false t1).lock.fireDebounce t2).locked = true ∧
    ((m.push html sel false t1).lock.fireDebounce t2).undoStack.getLast? =
      some ⟨html, sel, t2⟩ ∧
    ((m.push html sel false t1).lock.fireDebounce t2).redoStack = [] ∧
    (m.push html sel false t1).lock.redoStack = m.redoStack := by
  have harm : (m.push html sel false t1).lock =
      { m with debounceTimer := some (html, sel), locked := true } := by
    rw [HistoryManager.push, if_neg (by simp [hlock]), if_neg (by simp)]
    rfl
  rw [harm, fireDebounce_armed _ html sel t2 rfl,
    doPush_commit _ _ _ _ (by simpa using hnd)]
  exact ⟨rfl, trimAppend_getLast m.undoStack _ m.maxSize hmax, rfl, rfl⟩

theorem lock_not_consulted_at_debounce_fire_witness :
    (let m0 : HistoryManager :=
      ⟨[⟨"p", none, 0⟩], [⟨"r", none, 1⟩], 6, none, false⟩
     ((m0.push "q" none false 2).lock.fireDebounce 3).locked = true ∧
      ((m0.push "q" none false 2).lock.fireDebounce 3).undoStack.getLast? =
        some ⟨"q", none, 3⟩ ∧
      ((m0.push "q" none false 2).lock.fireDebounce 3).redoStack = [] ∧
      (m0.push "q" none false 2).lock.redoStack = m0.redoStack) :=
  lock_not_consulted_at_debounce_fire _ "q" none 2 3 rfl (by decide)
    (by decide)

/-- Joint resolution property of the two levels of the path encoder: a
successful getNodePath decodes back to a node with the searched identity, and
a successful list-level search from start index i yields a path headed by
i plus the position of the matching child, whose remainder resolves inside
that child. -/
theorem getNodePath_resolves :
    (∀ (root : DomNode) (target : Nat) (p : List Nat),
      getNodePath root target = some p →
      ∃ n, getNodeFromPath root p = some n ∧ n.nodeId = target) ∧
    (∀ (cs : List DomNode) (index target : Nat) (p : List Nat),
      getNodePathList cs index target = some p →
      ∃ j child rest, p = (index + j) :: rest ∧ cs.get? j = some child ∧
        ∃ n, getNodeFromPath child rest = some n ∧ n.nodeId = target) := by
  have key := getNodePath.mutual_induct
    (fun root target => ∀ p, getNodePath root target = some p →
      ∃ n, getNodeFromPath root p = some n ∧ n.nodeId = target)
    (fun cs index target => ∀ p, getNodePathList cs index target = some p →
      ∃ j child rest, p = (index + j) :: rest ∧ cs.get? j = some child ∧
        ∃ n, getNodeFromPath child rest = some n ∧ n.nodeId = target)
    ?_ ?_ ?_ ?_ ?_ ?_ ?_
  · exact ⟨fun root target p => key.1 root target p,
      fun cs index target p => key.2 cs index target p⟩
  · intro data target p hp
    simp only [getNodePath, if_pos rfl] at hp
    cases hp
    exact ⟨DomNode.text target data, rfl, rfl⟩
  · intro i data target hne p hp
    simp [getNodePath, hne] at hp
  · intro cs target p hp
    simp only [getNodePath, if_pos rfl] at hp
    cases hp
    exact ⟨DomNode.element target cs, rfl, rfl⟩
  · intro i cs target hne ih p hp
    simp only [getNodePath, if_neg hne] at hp
    obtain ⟨j, child, rest, hpj, hget, n, hres, hid⟩ := ih p hp
    subst hpj
    refine ⟨n, ?_, hid⟩
    simp only [getNodeFromPath, DomNode.childNodes, Nat.zero_add, hget]
    exact hres
  · intro i t p hp
    simp [getNodePathList] at hp
  · intro child rest index target q hq ih p hp
    simp only [getNodePathList, hq] at hp
    cases hp
    obtain ⟨n, hres, hid⟩ := ih q hq
    exact ⟨0, child, q, by simp, by simp, n, hres, hid⟩
  · intro child rest index target hnone ih1 ih2 p hp
    simp only [getNodePathList, hnone] at hp
    obtain ⟨j, child2, rest2, hpj, hget, n, hres, hid⟩ := ih2 p hp
    refine ⟨j + 1, child2, rest2, ?_, by simpa using hget, n, hres, hid⟩
    rw [hpj]
    congr 1
    omega

/-- C5: the round-trip law of the path codec. For every document tree and
every node identity beneath the root, decoding the structural address
produced by encoding that position resolves to a node carrying exactly the
encoded identity (the same structural position), provided the tree is
unmodified between encode and decode. -/
theorem encode_decode_roundtrip (root : DomNode) (target : Nat)
    (p : List Nat) (h : getNodePath root target = some p) :
    ∃ n, getNodeFromPath root p = some n ∧ n.nodeId = target :=
  getNodePath_resolves.1 root target p h

theorem encode_decode_roundtrip_witness :
    getNodePath fiveParagraphDoc 31 = some [2, 0] ∧
    ∃ n, getNodeFromPath fiveParagraphDoc [2, 0] = some n ∧ n.nodeId = 31 :=
  ⟨by decide, encode_decode_roundtrip fiveParagraphDoc 31 [2, 0] (by decide)⟩

/-- Appending then trimming never grows the stack beyond the capacity when it
was within capacity before. -/
theorem trimAppend_length_le (l : List HistorySnapshot) (x : HistorySnapshot)
    (N : Nat) (h : l.length ≤ N) : (trimAppend l x N).length ≤ N := by
  rw [trimAppend]
  split
  · simp
    exact h
  · rename_i hc
    simp at hc ⊢
    omega

/-- doPush preserves the configured capacity. -/
theorem doPush_maxSize (m : HistoryManager) (html : String)
    (sel : Option SerializedSelection) (now : Nat) :
    (m.doPush html sel now).maxSize = m.maxSize := by
  by_cases hd : m.undoStack.getLast?.map HistorySnapshot.html = some html
  · rw [doPush_duplicate _ _ _ _ hd]
  · rw [doPush_commit _ _ _ _ hd]

/-- doPush preserves the capacity invariant: the two stacks together never
hold more than maxSize snapshots. -/
theorem doPush_inv (m : HistoryManager) (html : String)
    (sel : Option SerializedSelection) (now : Nat)
    (h : m.undoStack.length + m.redoStack.length ≤ m.maxSize) :
    (m.doPush html sel now).undoStack.length +
      (m.doPush html sel now).redoStack.length ≤ m.maxSize := by
  by_cases hd : m.undoStack.getLast?.map HistorySnapshot.html = some html
  · rw [doPush_duplicate _ _ _ _ hd]
    exact h
  · rw [doPush_commit _ _ _ _ hd]
    simpa using trimAppend_length_le m.undoStack _ m.maxSize (by omega)

/-- Every operation preserves the configured capacity. -/
theorem applyOp_maxSize (m : HistoryManager) (op : HistOp) :
    (applyOp m op).maxSize = m.maxSize := by
  cases op with
  | push html sel imm now =>
    by_cases hL : m.locked
    · simp [applyOp, HistoryManager.push, hL]
    · cases imm with
      | false => simp [applyOp, HistoryManager.push, hL]
      | true => simp [applyOp, HistoryManager.push, hL, doPush_maxSize]
  | fire now =>
    cases ht : m.debounceTimer with
    | none => simp [applyOp, HistoryManager.fireDebounce, ht]
    | some pair =>
      obtain ⟨c, s⟩ := pair
      rw [applyOp, fireDebounce_armed m c s now ht, doPush_maxSize]
  | undo currentHtml currentSelection now =>
    by_cases h0 : m.undoStack.length = 0 <;>
      simp [applyOp, HistoryManager.undo, h0]
  | redo currentHtml currentSelection now =>
    by_cases h0 : m.redoStack.length = 0 <;>
      simp [applyOp, HistoryManager.redo, h0]
  | clear => rfl
  | lock => rfl
  | unlock => rfl

/-- Every operation preserves the capacity invariant. -/
theorem applyOp_inv (m : HistoryManager) (op : HistOp)
    (h : m.undoStack.length + m.redoStack.length ≤ m.maxSize) :
    (applyOp m op).undoStack.length + (applyOp m op).redoStack.length ≤
      (applyOp m op).maxSize := by
  rw [applyOp_maxSize]
  cases op with
  | push html sel imm now =>
    by_cases hL : m.locked
    · simpa [applyOp, HistoryManager.push, hL] using h
    · cases imm with
      | false => simpa [applyOp, HistoryManager.push, hL] using h
      | true =>
        rw [applyOp, HistoryManager.push, if_neg hL, if_pos rfl]
        exact doPush_inv { m with debounceTimer := none } html sel now h
  | fire now =>
    cases ht : m.debounceTimer with
    | none => simpa [applyOp, HistoryManager.fireDebounce, ht] using h
    | some pair =>
      obtain ⟨c, s⟩ := pair
      rw [applyOp, fireDebounce_armed m c s now ht]
      exact doPush_inv { m with debounceTimer := none } c s now h
  | undo currentHtml currentSelection now =>
    by_cases h0 : m.undoStack.length = 0
    · simpa [applyOp, HistoryManager.undo, h0] using h
    · simp [applyOp, HistoryManager.undo, h0, List.length_dropLast]
      omega
  | redo currentHtml currentSelection now =>
    by_cases h0 : m.redoStack.length = 0
    · simpa [applyOp, HistoryManager.redo, h0] using h
    · simp [applyOp, HistoryManager.redo, h0, List.length_dropLast]
      omega
  | clear => simp [applyOp, HistoryManager.clear]
  | lock => simpa [applyOp, HistoryManager.lock] using h
  | unlock => simpa [applyOp, HistoryManager.unlock] using h

/-- The capacity invariant holds after any operation sequence, and the
capacity itself never changes. -/
theorem applyOps_inv (ops : List HistOp) : ∀ (m : HistoryManager),
    m.undoStack.length + m.redoStack.length ≤ m.maxSize →
    (applyOps m ops).undoStack.length + (applyOps m ops).redoStack.length ≤
      (applyOps m ops).maxSize ∧ (applyOps m ops).maxSize = m.maxSize := by
  induction ops with
  | nil => exact fun m h => ⟨h, rfl⟩
  | cons op rest ih =>
    intro m h
    have hstep : applyOps m (op :: rest) = applyOps (applyOp m op) rest := rfl
    rw [hstep]
    have hop : (applyOp m op).undoStack.length +
        (applyOp m op).redoStack.length ≤ (applyOp m op).maxSize :=
      applyOp_inv m op h
    obtain ⟨h1, h2⟩ := ih (applyOp m op) hop
    exact ⟨h1, h2.trans (applyOp_maxSize m op)⟩

/-- The html views commute with append-then-trim. -/
theorem trimAppend_map_html (l : List HistorySnapshot) (x : HistorySnapshot)
    (N : Nat) :
    (trimAppend l x N).map HistorySnapshot.html =
      if l.length + 1 > N then
        (l.map HistorySnapshot.html ++ [x.html]).tail
      else l.map HistorySnapshot.html ++ [x.html] := by
  rw [trimAppend]
  by_cases hc : (l ++ [x]).length > N
  · rw [if_pos hc, if_pos (by simpa using hc), List.map_tail]
    simp
  · rw [if_neg hc, if_neg (by simpa using hc)]
    simp

/-- One committing step of the FIFO suffix: appending a fresh element to the
kept suffix of length at most N, trimming on overflow, yields the kept suffix
of the extended list. -/
theorem suffix_step (L : List String) (c : String) (N : Nat) (hN : 1 ≤ N) :
    (if (L.drop (L.length - N)).length + 1 > N then
        ((L.drop (L.length - N)) ++ [c]).tail
      else (L.drop (L.length - N)) ++ [c]) =
      (L ++ [c]).drop ((L ++ [c]).length - N) := by
  have hlendrop : (L.drop (L.length - N)).length = L.length - (L.length - N) :=
    List.length_drop _ _
  have hL1 : (L ++ [c]).length = L.length + 1 := by simp
  by_cases hlen : N ≤ L.length
  · split
    · cases hS : L.drop (L.length - N) with
      | nil =>
        rw [hS] at hlendrop
        simp at hlendrop
        omega
      | cons s0 Srest =>
        simp only [List.cons_append, List.tail_cons]
        have htl := congrArg List.tail hS
        rw [List.tail_drop] at htl
        have hrest : Srest = L.drop (L.length - N + 1) := by
          simpa using htl.symm
        rw [hrest, hL1,
          List.drop_append_of_le_length
            (show L.length + 1 - N ≤ L.length by omega)]
        have harith : L.length - N + 1 = L.length + 1 - N := by omega
        rw [harith]
    · rename_i hcond
      omega
  · split
    · rename_i hcond
      omega
    · have h0 : L.length - N = 0 := by omega
      have h2 : (L ++ [c]).length - N = 0 := by omega
      rw [h0, List.drop_zero, h2, List.drop_zero]

/-- Pushing a list of pairwise-distinct contents immediately through an empty
store of capacity N keeps the store unlocked at capacity N and leaves the
undo stack holding exactly the last N contents, oldest evicted first. -/
theorem pushAll_spec (N : Nat) (L : List String)
    (hd : L.Pairwise (fun a b => ¬ a = b)) :
    (pushAll (HistoryManager.init N) L).locked = false ∧
    (pushAll (HistoryManager.init N) L).maxSize = N ∧
    (pushAll (HistoryManager.init N) L).undoStack.map HistorySnapshot.html =
      L.drop (L.length - N) := by
  induction L using List.reverseRecOn with
  | nil => exact ⟨rfl, rfl, by simp [pushAll, HistoryManager.init]⟩
  | append_singleton L c ih =>
    obtain ⟨hdL, _, hlast⟩ := List.pairwise_append.1 hd
    obtain ⟨ihlock, ihmax, ihmap⟩ := ih hdL
    have hstep : pushAll (HistoryManager.init N) (L ++ [c]) =
        (pushAll (HistoryManager.init N) L).push c none true 0 := by
      simp [pushAll, List.foldl_append]
    rw [hstep, HistoryManager.push, if_neg (by rw [ihlock]; simp),
      if_pos rfl]
    by_cases hS : L.drop (L.length - N) = []
    · have hempty : (pushAll (HistoryManager.init N) L).undoStack = [] := by
        have hm := ihmap
        rw [hS] at hm
        exact List.map_eq_nil_iff.1 hm
      rw [doPush_commit _ _ _ _ (by simp [hempty])]
      refine ⟨ihlock, ihmax, ?_⟩
      rw [trimAppend_map_html, hempty, ihmax]
      rcases Nat.eq_zero_or_pos N with hN0 | hNpos
      · subst hN0
        simp [List.drop_length]
      · have hLnil : L = [] := by
          have hle := List.drop_eq_nil_iff.mp hS
          have : L.length = 0 := by omega
          exact List.eq_nil_of_length_eq_zero this
        subst hLnil
        split
        · rename_i hcond
          simp at hcond
          omega
        · have h10 : ([] ++ [c] : List String).length - N = 0 := by
            simp
            omega
          rw [h10, List.drop_zero]
          simp
    · have hN1 : 1 ≤ N := by
        by_contra hno
        have hz : N = 0 := by omega
        rw [hz, Nat.sub_zero, List.drop_length] at hS
        exact hS rfl
      have hgl : (pushAll (HistoryManager.init N) L).undoStack.getLast?.map
          HistorySnapshot.html = (L.drop (L.length - N)).getLast? := by
        rw [← List.getLast?_map, ihmap]
      have hLlast : (L.drop (L.length - N)).getLast? = L.getLast? := by
        conv_rhs => rw [← List.take_append_drop (L.length - N) L]
        rw [List.getLast?_append_of_ne_nil _ hS]
      obtain ⟨slast, hslast⟩ : ∃ a, L.getLast? = some a := by
        cases hgo : L.getLast? with
        | none =>
          have : L = [] := List.getLast?_eq_none_iff.mp hgo
          rw [this] at hS
          simp at hS
        | some a => exact ⟨a, rfl⟩
      have hsne : ¬ slast = c :=
        hlast slast (List.mem_of_mem_getLast? hslast) c
          (List.mem_singleton.2 rfl)
      have hnd : ¬ (pushAll (HistoryManager.init N) L).undoStack.getLast?.map
          HistorySnapshot.html = some c := by
        rw [hgl, hLlast, hslast]
        simp [hsne]
      rw [doPush_commit _ _ _ _ (by simpa using hnd)]
      refine ⟨ihlock, ihmax, ?_⟩
      rw [trimAppend_map_html, ihmap, ihmax]
      have hlenu : (pushAll (HistoryManager.init N) L).undoStack.length =
          (L.drop (L.length - N)).length := by
        rw [← List.length_map (pushAll (HistoryManager.init N) L).undoStack
          HistorySnapshot.html, ihmap]
      rw [hlenu]
      exact suffix_step L c N hN1

/-- C3: for every sequence of push, fire, undo, redo, clear, lock, unlock
operations from an empty store of capacity N, the undo stack never exceeds N
entries (even though undo and redo move entries between the stacks); and
pushing N + 5 pairwise-distinct contents through the empty store with the
debounce settled leaves exactly N entries, the oldest 5 evicted in FIFO
order. -/
theorem undo_stack_never_exceeds_capacity (N : Nat) (ops : List HistOp)
    (L : List String) (hdistinct : L.Pairwise (fun a b => ¬ a = b))
    (hlen : L.length = N + 5) :
    (applyOps (HistoryManager.init N) ops).undoStack.length ≤ N ∧
    (pushAll (HistoryManager.init N) L).undoStack.length = N ∧
    (pushAll (HistoryManager.init N) L).undoStack.map HistorySnapshot.html =
      L.drop 5 := by
  refine ⟨?_, ?_, ?_⟩
  · have h := applyOps_inv ops (HistoryManager.init N)
      (by simp [HistoryManager.init])
    have h1 := h.1
    rw [h.2] at h1
    have : (HistoryManager.init N).maxSize = N := rfl
    omega
  · obtain ⟨_, _, hmap⟩ := pushAll_spec N L hdistinct
    have hlenu : (pushAll (HistoryManager.init N) L).undoStack.length =
        (L.drop (L.length - N)).length := by
      rw [← List.length_map (pushAll (HistoryManager.init N) L).undoStack
        HistorySnapshot.html, hmap]
    rw [hlenu, List.length_drop]
    omega
  · obtain ⟨_, _, hmap⟩ := pushAll_spec N L hdistinct
    rw [hmap]
    congr 1
    omega

theorem undo_stack_never_exceeds_capacity_witness :
    (applyOps (HistoryManager.init 2) c3WitnessOps).undoStack.length ≤ 2 ∧
    (pushAll (HistoryManager.init 2) c3WitnessContents).undoStack.length =
      2 ∧
    (pushAll (HistoryManager.init 2)
        c3WitnessContents).undoStack.map HistorySnapshot.html =
      c3WitnessContents.drop 5 :=
  undo_stack_never_exceeds_capacity 2 c3WitnessOps c3WitnessContents
    (by decide) (by decide)

end TinyText
